import Mathlib

/-!
# flatpack — verification of the redaction/scope core

A shallow embedding of `src/devtools/flatpack.py`.  Paths and patterns are
Lean `String`s; the byte-level I/O world (git oracle, filesystem, hashing,
text codecs) is abstracted into explicit structures passed to the embedded
functions, mirroring how the Python code calls out to `subprocess`, `os`
and `hashlib`.
-/

namespace Flatpack

/-! ## Character-list utilities

Python string operations used by `flatpack.py` (`startswith`, `split("/")`,
lexicographic `sorted`, `lstrip("!")`) are embedded as structural functions
on `List Char`, applied to `String.data`. -/

/-- `s.split("/")` on character lists: `"a/b" ↦ [a, b]`, `"" ↦ [""]`. -/
def splitSlash : List Char → List (List Char)
  | [] => [[]]
  | c :: rest =>
    let r := splitSlash rest
    if c = '/' then [] :: r
    else
      match r with
      | [] => [[c]]
      | seg :: segs => (c :: seg) :: segs

/-- Does `l` start with `p` (Python `startswith` on char lists)? -/
def startsWithChars : List Char → List Char → Bool
  | _, [] => true
  | [], _ :: _ => false
  | c :: cs, p :: ps => c = p && startsWithChars cs ps

/-- Python `<=` on strings: lexicographic comparison by code point. -/
def charListLe : List Char → List Char → Bool
  | [], _ => true
  | _ :: _, [] => false
  | a :: as, b :: bs =>
    if a.val < b.val then true
    else if b.val < a.val then false
    else charListLe as bs

/-- Python `lstrip("!")`: drop every leading `'!'`. -/
def dropBangs : List Char → List Char
  | [] => []
  | c :: rest => if c = '!' then dropBangs rest else c :: rest

/-- `e["path"].split("/")[-1]`: the basename of a slash-separated path
(`""` when the path is empty or ends in `/`). -/
def basenameChars (l : List Char) : List Char :=
  (splitSlash l).getLastD []

/-! ## `_normalize_path` (flatpack.py lines 160–164)

Remove literal `"./"` prefixes only; do NOT strip leading dots. -/

/-- The loop `while p.startswith("./"): p = p[2:]`, on character lists. -/
def normalizeChars : List Char → List Char
  | [] => []
  | [c] => [c]
  | a :: b :: rest => if a = '.' ∧ b = '/' then normalizeChars rest else a :: b :: rest

/-- `_normalize_path`: repeatedly strip a literal leading `"./"`. -/
def normalize_path (p : String) : String :=
  ⟨normalizeChars p.data⟩

/-! ## The gitwildmatch matcher

`flatpack.py` delegates per-pattern matching to the third-party
`pathspec.patterns.gitwildmatch.GitWildMatchPattern.match_file`, whose
source is not part of this repository.

Modelled from the spec: §4.2 "Path Matcher" gives the matching semantics
(root anchoring, directory rules, glob with `*`/`?`/`**`, basename
fallback); the model below follows those clauses.  Bracket character
classes are accepted as literal characters (no rule considered here uses
them; the spec's non-goal clause excludes exotic pattern features). -/

/-- All suffixes of `s` reachable by letting `*` consume characters other
than `'/'` (including consuming nothing). -/
def starSuffixes : List Char → List (List Char)
  | [] => [[]]
  | c :: rest => (c :: rest) :: (if c = '/' then [] else starSuffixes rest)

/-- All suffixes of `s` (what a bare `**` may leave behind). -/
def allSuffixes : List Char → List (List Char)
  | [] => [[]]
  | c :: rest => (c :: rest) :: allSuffixes rest

/-- Every suffix of `s` that starts right after some `'/'`. -/
def afterSlashSuffixes : List Char → List (List Char)
  | [] => []
  | '/' :: rest => rest :: afterSlashSuffixes rest
  | _ :: rest => afterSlashSuffixes rest

/-- `s` together with every suffix that starts right after a `'/'`:
what a leading `**/` may leave behind (zero or more whole segments). -/
def segSuffixes (s : List Char) : List (List Char) :=
  s :: afterSlashSuffixes s

/-- Glob matching of a pattern against a whole string: `*` matches any run
of characters except `'/'`, `?` any single character except `'/'`,
`**/` zero or more whole path segments, a bare `**` any run of
characters including `'/'`; everything else matches literally. -/
def glob : List Char → List Char → Bool
  | [], [] => true
  | [], _ :: _ => false
  | '*' :: '*' :: '/' :: ps, s => (segSuffixes s).any fun r => glob ps r
  | '*' :: '*' :: ps, s => (allSuffixes s).any fun r => glob ps r
  | '*' :: ps, s => (starSuffixes s).any fun r => glob ps r
  | '?' :: _, [] => false
  | '?' :: ps, c :: s => if c = '/' then false else glob ps s
  | _ :: _, [] => false
  | p :: ps, c :: s => p = c && glob ps s

/-- Wildcard characters recognised by the glob language. -/
def hasWildcard (l : List Char) : Bool :=
  l.any fun c => c = '*' || c = '?' || c = '['

/-- One matching clause dispatch of §4.2, on the pattern with any leading
`'!'` already removed and a path already normalized. -/
def gitwildMatches (pat : List Char) (path : List Char) : Bool :=
  if pat.head? = some '/' then
    let core := pat.tail
    if core.getLast? = some '/' then
      -- root-anchored directory rule `/dir/`: the directory itself or
      -- anything under it
      (path = core.dropLast || startsWithChars path (core.dropLast ++ ['/']) : Bool)
    else if ¬ hasWildcard core ∧ ¬ core.contains '/' then
      -- `/dir` behaves like `/dir/`
      (path = core || startsWithChars path (core ++ ['/']) : Bool)
    else
      -- root-anchored glob against the full path
      glob core path
  else
    if pat.getLast? = some '/' then
      -- non-anchored directory rule: the name is a complete segment
      (splitSlash path).contains pat.dropLast
    else if pat.contains '/' then
      -- internal slash: glob against the full relative path
      glob pat path
    else
      -- no slash: basename or full path, whichever matches
      glob pat (basenameChars path) || glob pat path

/-! ## `GitWildMatchPattern` and the redaction resolver
(flatpack.py lines 192–221) -/

/-- A compiled rule: the original pattern text and pathspec's `include`
flag (`true` for a normal rule, `false` for a negated `!…` rule). -/
structure GitWildMatchPattern where
  pattern : String
  inc : Bool
deriving DecidableEq, Repr

/-- Modelled from the spec: `pathspec`'s `GitWildMatchPattern(p)`
constructor — a leading `'!'` marks a negated rule and is stripped from
the text used for matching (spec §3, §4.1). -/
def GitWildMatchPattern.ofLine (line : String) : GitWildMatchPattern :=
  if line.data.head? = some '!' then ⟨line, false⟩ else ⟨line, true⟩

/-- Modelled from the spec: `GitWildMatchPattern.match_file` — match the
pattern text (negation marker removed) against the path per §4.2. -/
def GitWildMatchPattern.match_file (p : GitWildMatchPattern) (path : String) : Bool :=
  gitwildMatches (dropBangs p.pattern.data) path.data

/-- `compile_gitwild_patterns`: compile lines in order. -/
def compile_gitwild_patterns (lines : List String) : List GitWildMatchPattern :=
  lines.map GitWildMatchPattern.ofLine

/-- The scan of `decide_redaction`: remember the last matching rule. -/
def lastMatch (rel : String) : List GitWildMatchPattern →
    Option (Bool × String) → Option (Bool × String)
  | [], last => last
  | p :: ps, last =>
    lastMatch rel ps (if p.match_file rel then some (p.inc, p.pattern) else last)

/-- `decide_redaction`: apply patterns in order, last match wins; returns
`(redact, reason)` with reason `"glob:<pattern>"`, `"negate:!<core>"`
or `"-"`. -/
def decide_redaction (rel_path : String) (pats : List GitWildMatchPattern) :
    Bool × String :=
  let rel := normalize_path rel_path
  match lastMatch rel pats none with
  | none => (false, "-")
  | some (true, t) => (true, "glob:" ++ t)
  | some (false, t) => (false, "negate:!" ++ (⟨dropBangs t.data⟩ : String))

example : decide_redaction "foo.txt" [] = (false, "-") := by decide
example : decide_redaction "foo.txt" (compile_gitwild_patterns ["*.txt"]) =
    (true, "glob:*.txt") := by decide
example : decide_redaction "foo.txt" (compile_gitwild_patterns ["*.txt", "!foo.txt"]) =
    (false, "negate:!foo.txt") := by decide
example : decide_redaction "foo.txt"
    (compile_gitwild_patterns ["*.txt", "!foo.txt", "foo.txt"]) =
    (true, "glob:foo.txt") := by decide
example : decide_redaction "data/file.bin" (compile_gitwild_patterns ["data/"]) =
    (true, "glob:data/") := by decide
example : decide_redaction "data/sub/n.txt" (compile_gitwild_patterns ["data/"]) =
    (true, "glob:data/") := by decide
example : decide_redaction "other/file.txt" (compile_gitwild_patterns ["data/"]) =
    (false, "-") := by decide
example : decide_redaction "README.md" (compile_gitwild_patterns ["/README.md"]) =
    (true, "glob:/README.md") := by decide
example : decide_redaction "docs/README.md" (compile_gitwild_patterns ["/README.md"]) =
    (false, "-") := by decide
example : decide_redaction "secret.txt" (compile_gitwild_patterns ["**/secret.txt"]) =
    (true, "glob:**/secret.txt") := by decide
example : decide_redaction "a/b/secret.txt" (compile_gitwild_patterns ["**/secret.txt"]) =
    (true, "glob:**/secret.txt") := by decide
example : (decide_redaction "foo/bar.txt" (compile_gitwild_patterns ["*.txt"])).1 = true := by decide
example : (decide_redaction "foo/bar.txt" (compile_gitwild_patterns ["*.md"])).1 = false := by decide
example : (decide_redaction "foo/bar.txt" (compile_gitwild_patterns ["bar.txt"])).1 = true := by decide
example : (decide_redaction "foo/bar.txt" (compile_gitwild_patterns ["baz.txt"])).1 = false := by decide
example : (decide_redaction "foo/bar.txt" (compile_gitwild_patterns ["foo/*.txt"])).1 = true := by decide
example : (decide_redaction "foo/bar.txt" (compile_gitwild_patterns ["/foo/bar.txt"])).1 = true := by decide
example : (decide_redaction "foo/bar.txt" (compile_gitwild_patterns ["/bar.txt"])).1 = false := by decide
example : (decide_redaction "foo/bar/baz.txt" (compile_gitwild_patterns ["foo/"])).1 = true := by decide
example : (decide_redaction "foo/bar/baz.txt" (compile_gitwild_patterns ["/foo/"])).1 = true := by decide
example : (decide_redaction "foo/bar/baz.txt" (compile_gitwild_patterns ["bar/"])).1 = true := by decide
example : (decide_redaction "foo/bar/baz.txt" (compile_gitwild_patterns ["baz/"])).1 = false := by decide
example : (decide_redaction "foo/bar/baz.txt" (compile_gitwild_patterns ["**/baz.txt"])).1 = true := by decide
example : (decide_redaction "foo/keep.txt"
    (compile_gitwild_patterns ["*.txt", "!foo/keep.txt"])).1 = false := by decide
example : normalize_path "./a" = "a" := by decide
example : normalize_path "././a" = "a" := by decide
example : normalize_path "./.env" = ".env" := by decide

/-! ## Python `sorted` and `set`

`collect_entries` builds `sorted(set(...))` and `render_tree` calls
`sorted(...)` with a key; both are stable sorts by code-point order,
embedded as insertion sort with an explicit boolean comparator. -/

/-- Insert `x` into `l` before the first element not below it. -/
def orderedInsert (le : α → α → Bool) (x : α) : List α → List α
  | [] => [x]
  | y :: ys => if le x y then x :: y :: ys else y :: orderedInsert le x ys

/-- Stable insertion sort with comparator `le` (Python `sorted`). -/
def sortBy (le : α → α → Bool) : List α → List α
  | [] => []
  | x :: xs => orderedInsert le x (sortBy le xs)

/-- Python `<=` on strings. -/
def stringLeB (a b : String) : Bool :=
  charListLe a.data b.data

/-- Python `sorted(set(l))`: deduplicate, then sort lexicographically. -/
def sortedSet (l : List String) : List String :=
  sortBy stringLeB l.dedup

/-! ## Scope collection (flatpack.py lines 269–325)

The git oracle (`git_ls_tracked` / `git_ls_untracked` / `git_ls_submodules`,
lines 68–114) and the filesystem (`os.path.isfile`, `os.path.getsize`,
`open(...).read()`) are abstracted as structures: `collect_entries` only
consumes their result lists, so successful oracle answers are passed in
directly.  `getsize rel = none` models `os.path.getsize` raising `OSError`;
`content rel = none` models `open`/`read` raising an `OSError` such as
`PermissionError`. -/

/-- One entry dict of `collect_entries`. -/
structure FileRecord where
  path : String
  tracked : Bool
  size : Nat
  redact : Bool
  reason : String
deriving DecidableEq, Repr

/-- The three git listing results consumed by `collect_entries`. -/
structure GitOracle where
  tracked : List String
  untracked : List String
  submods : List String

/-- The filesystem as seen through `os.path.isfile`, `os.path.getsize`
and `open(path, "rb").read()`, keyed by repository-relative path. -/
structure FS where
  isfile : String → Bool
  getsize : String → Option Nat
  content : String → Option (List Nat)

/-- The body of `collect_entries`' `for rel in files` loop, one recursion
step per path, accumulating `(entries, tracked_count, untracked_count)`. -/
def collectLoop (tracked submods : List String) (fs : FS)
    (pats : List GitWildMatchPattern) : List String → List FileRecord × Nat × Nat
  | [] => ([], 0, 0)
  | rel :: rest =>
    let r := collectLoop tracked submods fs pats rest
    if submods.contains rel then
      -- submodule gitlinks: tracked, size 0, no regular-file check
      let d := decide_redaction rel pats
      (⟨rel, true, 0, d.1, d.2⟩ :: r.1, r.2.1 + 1, r.2.2)
    else if fs.isfile rel then
      match fs.getsize rel with
      | none => r  -- WARN: cannot stat; skip
      | some size =>
        let is_tracked := tracked.contains rel
        let d := decide_redaction rel pats
        (⟨rel, is_tracked, size, d.1, d.2⟩ :: r.1,
          if is_tracked then r.2.1 + 1 else r.2.1,
          if is_tracked then r.2.2 else r.2.2 + 1)
    else r

/-- `collect_entries`: union tracked, (optionally) untracked and submodule
paths, deduplicate and sort, then build one record per surviving path. -/
def collect_entries (oracle : GitOracle) (fs : FS) (include_untracked : Bool)
    (pats : List GitWildMatchPattern) : List FileRecord × Nat × Nat :=
  let files := sortedSet
    (oracle.tracked ++ (if include_untracked then oracle.untracked else []) ++
      oracle.submods)
  collectLoop oracle.tracked oracle.submods fs pats files

/-! ## The per-file blocks of `dump_repo` (flatpack.py lines 373–422)

Modelled from the spec: `hashlib.sha256` (streaming chunk updates over a
file equal a single digest of its whole byte sequence), strict UTF-8
decoding (`is_utf8_text` / `bytes.decode`) and `base64.b64encode` are
standard-library primitives outside this repository, abstracted as
uninterpreted total functions on byte sequences. -/

/-- Abstracted byte-level codecs used by `dump_repo`. -/
structure Codec where
  sha256hex : List Nat → String
  isUtf8 : List Nat → Bool
  utf8 : List Nat → String
  b64 : List Nat → String

/-- The fields written between `===== BEGIN FILE =====` and
`===== END FILE =====` for one entry; `body` is what stands between
`----- CONTENT -----` and the end delimiter. -/
structure Block where
  path : String
  mode : String
  enc : String
  size : Nat
  redacted : Bool
  reason : String
  hashLine : String
  body : String
deriving DecidableEq, Repr

/-- Outcome of the `for e in entries` loop of `dump_repo`: the blocks
written, the `WARN:` lines printed to stderr, and the uncaught exception
(if any) that aborted the loop. -/
structure DumpResult where
  blocks : List Block
  warns : List String
  err : Option String
deriving DecidableEq, Repr

/-- The `for e in entries` loop of `dump_repo`: hash first (any failure
degrades to `Hash: -` with a warning), then either emit a redacted block
without reading content, or read the body — where a read failure is an
uncaught exception that ends the loop. -/
def dumpFileBlocks (c : Codec) (fs : FS) : List FileRecord → DumpResult
  | [] => ⟨[], [], none⟩
  | e :: rest =>
    let hashRes := fs.content e.path
    let hashLine := match hashRes with
      | some data => "Hash: sha256:" ++ c.sha256hex data
      | none => "Hash: -"
    let warns0 : List String := match hashRes with
      | some _ => []
      | none => ["WARN: cannot hash " ++ e.path]
    if e.redact then
      let r := dumpFileBlocks c fs rest
      ⟨⟨e.path, "binary", "base64", e.size, true, e.reason, hashLine, ""⟩ :: r.blocks,
        warns0 ++ r.warns, r.err⟩
    else
      match fs.content e.path with
      | none => ⟨[], warns0, some ("OSError reading " ++ e.path)⟩
      | some data =>
        let mode := if c.isUtf8 data then "text" else "binary"
        let enc := if c.isUtf8 data then "utf-8" else "base64"
        let body0 := if c.isUtf8 data then c.utf8 data else c.b64 data
        let body := if body0.data.getLast? = some '\n' then body0 else body0 ++ "\n"
        let r := dumpFileBlocks c fs rest
        ⟨⟨e.path, mode, enc, data.length, false, "-", hashLine, body⟩ :: r.blocks,
          warns0 ++ r.warns, r.err⟩

/-! ## Tree building and rendering order (flatpack.py lines 226–264) -/

/-- The nested dict of `build_tree_index`: `"__dirs__"` keyed by name in
insertion order, `"__files__"` in append order. -/
inductive TreeNode where
  | node (dirs : List (String × TreeNode)) (files : List FileRecord)
deriving Repr

/-- `node["__dirs__"].setdefault(p, empty)` followed by replacing that
child with `f child`: update the association list in place, appending a
fresh key at the end. -/
def updateAssoc (f : TreeNode → TreeNode) (d : String) :
    List (String × TreeNode) → List (String × TreeNode)
  | [] => [(d, f (.node [] []))]
  | (k, t) :: ds => if k = d then (k, f t) :: ds else (k, t) :: updateAssoc f d ds

/-- Insert one entry: walk the directory components, then append the
entry to `"__files__"` of the final node. -/
def TreeNode.insert : TreeNode → List String → FileRecord → TreeNode
  | .node dirs files, [], e => .node dirs (files ++ [e])
  | .node dirs files, d :: rest, e =>
    .node (updateAssoc (fun t => TreeNode.insert t rest e) d dirs) files

/-- `build_tree_index`: fold all entries into the empty root. -/
def build_tree_index (entries : List FileRecord) : TreeNode :=
  entries.foldl
    (fun t e =>
      t.insert (((splitSlash e.path.data).map fun l => (⟨l⟩ : String)).dropLast) e)
    (.node [] [])

/-- Comparator for `sorted(node["__dirs__"].keys())` lifted to pairs. -/
def dirNameLe (a b : String × List FileRecord) : Bool :=
  charListLe a.1.data b.1.data

/-- Comparator for `sorted(node["__files__"], key=basename)`. -/
def fileBaseLe (a b : FileRecord) : Bool :=
  charListLe (basenameChars a.path.data) (basenameChars b.path.data)

mutual

/-- The order in which `render_tree` writes file lines: directory children
first (alphabetically by name, depth-first), then this node's file
entries sorted by basename.  `render_tree` sorts the names before
recursing; here each child's order is computed first and the `(name,
order)` pairs are then sorted — the same traversal for a pure function. -/
def TreeNode.fileOrder : TreeNode → List FileRecord
  | .node dirs files =>
    (sortBy dirNameLe (dirsFileOrders dirs)).flatMap (fun p => p.2) ++
      sortBy fileBaseLe files

/-- `fileOrder` of every child, in stored order. -/
def dirsFileOrders : List (String × TreeNode) → List (String × List FileRecord)
  | [] => []
  | (k, t) :: ds => (k, TreeNode.fileOrder t) :: dirsFileOrders ds

end

/-- The `Files: … Tracked: … Untracked: …` header line written by
`write_tree_and_header` (flatpack.py line 333). -/
def filesLine (entries : List FileRecord) (tracked_count untracked_count : Nat) :
    String :=
  "Files: " ++ toString entries.length ++ "   Tracked: " ++
    toString tracked_count ++ "   Untracked: " ++ toString untracked_count

/-! ## Helper lemmas -/

theorem orderedInsert_perm (le : α → α → Bool) (x : α) :
    ∀ l : List α, List.Perm (orderedInsert le x l) (x :: l)
  | [] => List.Perm.refl _
  | y :: ys => by
    simp only [orderedInsert]
    split
    · exact List.Perm.refl _
    · exact ((orderedInsert_perm le x ys).cons y).trans (List.Perm.swap x y ys)

theorem sortBy_perm (le : α → α → Bool) : ∀ l : List α, List.Perm (sortBy le l) l
  | [] => List.Perm.refl _
  | x :: xs =>
    (orderedInsert_perm le x (sortBy le xs)).trans ((sortBy_perm le xs).cons x)

theorem mem_sortedSet {p : String} {l : List String} :
    p ∈ sortedSet l ↔ p ∈ l :=
  ((sortBy_perm stringLeB l.dedup).mem_iff).trans (List.mem_dedup)

theorem nodup_sortedSet (l : List String) : (sortedSet l).Nodup :=
  ((sortBy_perm stringLeB l.dedup).nodup_iff).mpr l.nodup_dedup

theorem normalizeChars_idem : ∀ l, normalizeChars (normalizeChars l) = normalizeChars l
  | [] => rfl
  | [_] => rfl
  | a :: b :: rest => by
    by_cases h : a = '.' ∧ b = '/'
    · have e : normalizeChars (a :: b :: rest) = normalizeChars rest := by
        simp only [normalizeChars, if_pos h]
      rw [e]; exact normalizeChars_idem rest
    · have e : normalizeChars (a :: b :: rest) = a :: b :: rest := by
        simp only [normalizeChars, if_neg h]
      rw [e]; exact e

theorem lastMatch_append (rel : String) (l1 l2 : List GitWildMatchPattern)
    (acc : Option (Bool × String)) :
    lastMatch rel (l1 ++ l2) acc = lastMatch rel l2 (lastMatch rel l1 acc) := by
  induction l1 generalizing acc with
  | nil => rfl
  | cons p ps ih => simp only [List.cons_append, lastMatch]; exact ih _

theorem lastMatch_of_no_match (rel : String) :
    ∀ (l : List GitWildMatchPattern) (acc : Option (Bool × String)),
      (∀ q ∈ l, q.match_file rel = false) → lastMatch rel l acc = acc := by
  intro l
  induction l with
  | nil => intro acc _; rfl
  | cons p ps ih =>
    intro acc h
    have hp := h p (List.mem_cons_self p ps)
    simp only [lastMatch, hp]
    exact ih acc fun q hq => h q (List.mem_cons_of_mem p hq)

theorem glob_double_star_any : ∀ s : List Char, glob ['*', '*'] s = true
  | [] => rfl
  | c :: rest => by
    have ih := glob_double_star_any rest
    simp only [glob, allSuffixes, List.any_cons] at ih ⊢
    simp [ih]

theorem glob_single_star_iff : ∀ s : List Char, glob ['*'] s = true ↔ '/' ∉ s := by
  intro s
  induction s with
  | nil => decide
  | cons c rest ih =>
    by_cases hc : c = '/'
    · subst hc
      have e : glob ['*'] ('/' :: rest) = false := rfl
      simp [e]
    · have eAny : ∀ r : List Char,
          ((starSuffixes r).any fun x => glob [] x) = glob ['*'] r := by
        intro r; cases r <;> rfl
      have e : glob ['*'] (c :: rest) = glob ['*'] rest := by
        rw [← eAny (c :: rest)]
        simp only [starSuffixes, if_neg hc, List.any_cons]
        have h0 : glob [] (c :: rest) = false := rfl
        rw [h0, Bool.false_or]
        exact eAny rest
      have hc' : ¬ ('/' = c) := fun h => hc h.symm
      rw [e, ih]
      simp [List.mem_cons, hc']

theorem collectLoop_length (T S : List String) (fs : FS)
    (pats : List GitWildMatchPattern) :
    ∀ l : List String,
      (collectLoop T S fs pats l).1.length =
        (collectLoop T S fs pats l).2.1 + (collectLoop T S fs pats l).2.2
  | [] => rfl
  | rel :: rest => by
    have ih := collectLoop_length T S fs pats rest
    simp only [collectLoop]
    split
    · simp [ih]; omega
    · split
      · split
        · exact ih
        · split <;> simp [ih] <;> omega
      · exact ih

/-! ## Claim theorems -/

/-- **C7** — Path normalization: `_normalize_path` strips only literal
leading `"./"` prefixes, repeatedly: `"./a"`, `"././a"` and `"a"` all
normalize to `"a"`, `"./.env"` normalizes to `".env"` (the filename's own
leading dot is preserved), and normalization is idempotent on every
string. -/
theorem normalize_path_normalization :
    normalize_path "./a" = "a" ∧ normalize_path "././a" = "a" ∧
    normalize_path "a" = "a" ∧ normalize_path "./.env" = ".env" ∧
    ∀ p : String, normalize_path (normalize_path p) = normalize_path p := by
  refine ⟨by decide, by decide, by decide, by decide, fun p => ?_⟩
  have hdata : (normalize_path p).data = normalizeChars p.data := rfl
  show (⟨normalizeChars (normalize_path p).data⟩ : String) = _
  rw [hdata, normalizeChars_idem]
  rfl

/-- **C6** — Double-star spans segments: `decide_redaction` redacts both
`"secret.txt"` and `"a/b/secret.txt"` under the single rule
`"**/secret.txt"`; a bare `**` matches every string (it crosses `/`),
while a single `*` matches a string exactly when it contains no `/`. -/
theorem decide_redaction_double_star :
    decide_redaction "secret.txt" (compile_gitwild_patterns ["**/secret.txt"]) =
      (true, "glob:**/secret.txt") ∧
    decide_redaction "a/b/secret.txt" (compile_gitwild_patterns ["**/secret.txt"]) =
      (true, "glob:**/secret.txt") ∧
    (∀ s : List Char, glob ['*', '*'] s = true) ∧
    (∀ s : List Char, glob ['*'] s = true ↔ '/' ∉ s) ∧
    glob "*/c.txt".data "a/b/c.txt".data = false ∧
    glob "**/c.txt".data "a/b/c.txt".data = true :=
  ⟨by decide, by decide, glob_double_star_any, glob_single_star_iff,
    by decide, by decide⟩

/-- **C10** — Count consistency: the records returned by `collect_entries`
are partitioned by the two counters — `len(entries) = tracked_count +
untracked_count` — so the emitted header line always reads
`Files: t+u   Tracked: t   Untracked: u`. -/
theorem collect_entries_counts (oracle : GitOracle) (fs : FS)
    (include_untracked : Bool) (pats : List GitWildMatchPattern) :
    (collect_entries oracle fs include_untracked pats).1.length =
      (collect_entries oracle fs include_untracked pats).2.1 +
        (collect_entries oracle fs include_untracked pats).2.2 ∧
    filesLine (collect_entries oracle fs include_untracked pats).1
        (collect_entries oracle fs include_untracked pats).2.1
        (collect_entries oracle fs include_untracked pats).2.2 =
      "Files: " ++
        toString ((collect_entries oracle fs include_untracked pats).2.1 +
          (collect_entries oracle fs include_untracked pats).2.2) ++
        "   Tracked: " ++
        toString (collect_entries oracle fs include_untracked pats).2.1 ++
        "   Untracked: " ++
        toString (collect_entries oracle fs include_untracked pats).2.2 := by
  have h : (collect_entries oracle fs include_untracked pats).1.length =
      (collect_entries oracle fs include_untracked pats).2.1 +
        (collect_entries oracle fs include_untracked pats).2.2 :=
    collectLoop_length oracle.tracked oracle.submods fs pats _
  exact ⟨h, by simp only [filesLine]; rw [h]⟩

/-- **C1** — Last-match-wins: `decide_redaction` returns the decision of
the rule appearing latest in file order among the rules matching the
path, regardless of pattern specificity; concretely, under
`["*.ext", "!specific.ext"]` the path `"specific.ext"` resolves to
`(false, "negate:!specific.ext")`, and appending `"specific.ext"` as a
third rule flips it to `(true, "glob:specific.ext")`. -/
theorem decide_redaction_last_match_wins :
    (∀ (path : String) (l1 l2 : List GitWildMatchPattern)
        (p : GitWildMatchPattern),
        p.match_file (normalize_path path) = true →
        (∀ q ∈ l2, q.match_file (normalize_path path) = false) →
        decide_redaction path (l1 ++ p :: l2) =
          if p.inc then (true, "glob:" ++ p.pattern)
          else (false, "negate:!" ++ (⟨dropBangs p.pattern.data⟩ : String))) ∧
    decide_redaction "specific.ext"
        (compile_gitwild_patterns ["*.ext", "!specific.ext"]) =
      (false, "negate:!specific.ext") ∧
    decide_redaction "specific.ext"
        (compile_gitwild_patterns ["*.ext", "!specific.ext", "specific.ext"]) =
      (true, "glob:specific.ext") := by
  refine ⟨?_, by decide, by decide⟩
  intro path l1 l2 p hp hl2
  show (match lastMatch (normalize_path path) (l1 ++ p :: l2) none with
    | none => (false, "-")
    | some (true, t) => (true, "glob:" ++ t)
    | some (false, t) =>
      (false, "negate:!" ++ (⟨dropBangs t.data⟩ : String))) = _
  rw [lastMatch_append]
  show (match lastMatch (normalize_path path) l2
      (if p.match_file (normalize_path path) then some (p.inc, p.pattern)
        else lastMatch (normalize_path path) l1 none) with
    | none => (false, "-")
    | some (true, t) => (true, "glob:" ++ t)
    | some (false, t) =>
      (false, "negate:!" ++ (⟨dropBangs t.data⟩ : String))) = _
  rw [hp]
  simp only [if_true]
  rw [lastMatch_of_no_match _ l2 _ hl2]
  cases hinc : p.inc <;> simp

theorem decide_redaction_last_match_wins_witness :
    decide_redaction "x.ext"
        (compile_gitwild_patterns ["irrelevant.md", "*.ext"]) =
      (true, "glob:*.ext") := by
  have h := decide_redaction_last_match_wins.1 "x.ext"
    [GitWildMatchPattern.ofLine "irrelevant.md"] []
    (GitWildMatchPattern.ofLine "*.ext") (by decide) (by intro q hq; simp at hq)
  simpa using h

theorem dropBangs_of_head_ne (l : List Char) (h : l.head? ≠ some '!') :
    dropBangs l = l := by
  cases l with
  | nil => rfl
  | cons c rest =>
    have hc : ¬ (c = '!') := fun e => h (by simp [e])
    simp [dropBangs, hc]

theorem ofLine_of_head_ne (line : String) (h : line.data.head? ≠ some '!') :
    GitWildMatchPattern.ofLine line = ⟨line, true⟩ := by
  simp [GitWildMatchPattern.ofLine, h]

theorem decide_redaction_single (path : String) (P : GitWildMatchPattern)
    (h : P.inc = true) :
    (decide_redaction path [P]).1 = P.match_file (normalize_path path) := by
  cases hm : P.match_file (normalize_path path) <;>
    simp [decide_redaction, lastMatch, hm, h]

/-- **C4** — Non-anchored directory rule: under the single rule `"data/"`,
`"data/sub/n.txt"` is redacted with reason `glob:data/` while
`"other/file.txt"` is not; in general a trailing-slash pattern without a
leading slash matches a path exactly when the named directory appears as
a complete path segment of it, so `foo/` matches `foo/x` and `a/foo/x`
but never `myfoo/x`. -/
theorem decide_redaction_directory_rule :
    decide_redaction "data/sub/n.txt" (compile_gitwild_patterns ["data/"]) =
      (true, "glob:data/") ∧
    decide_redaction "other/file.txt" (compile_gitwild_patterns ["data/"]) =
      (false, "-") ∧
    (∀ (d path : String), d.data ≠ [] → d.data.head? ≠ some '!' →
      d.data.contains '/' = false →
      ((decide_redaction path (compile_gitwild_patterns [d ++ "/"])).1 = true ↔
        d.data ∈ splitSlash (normalize_path path).data)) ∧
    (decide_redaction "foo/x" (compile_gitwild_patterns ["foo/"])).1 = true ∧
    (decide_redaction "a/foo/x" (compile_gitwild_patterns ["foo/"])).1 = true ∧
    (decide_redaction "myfoo/x" (compile_gitwild_patterns ["foo/"])).1 = false := by
  refine ⟨by decide, by decide, ?_, by decide, by decide, by decide⟩
  intro d path hne hhead hnoslash
  have hmem : ('/' : Char) ∉ d.data := by
    intro hm
    have hc : d.data.contains '/' = true := List.elem_iff.mpr hm
    rw [hnoslash] at hc
    exact Bool.false_ne_true hc
  have hdata : (d ++ "/").data = d.data ++ ['/'] := rfl
  have hhead2 : (d ++ "/").data.head? ≠ some '!' := by
    rw [hdata]
    cases hdd : d.data with
    | nil => exact absurd hdd hne
    | cons c cs =>
      rw [hdd] at hhead
      simpa using hhead
  rw [show compile_gitwild_patterns [d ++ "/"] = [⟨d ++ "/", true⟩] from by
    simp [compile_gitwild_patterns, ofLine_of_head_ne _ hhead2]]
  rw [decide_redaction_single path ⟨d ++ "/", true⟩ rfl]
  show gitwildMatches (dropBangs (d.data ++ ['/'])) (normalize_path path).data
      = true ↔ _
  rw [dropBangs_of_head_ne _ (hdata ▸ hhead2)]
  have hheadp : ¬ ((d.data ++ ['/']).head? = some '/') := by
    cases hdd : d.data with
    | nil => exact absurd hdd hne
    | cons c cs =>
      have hc : c ≠ '/' := by
        intro e
        exact hmem (by rw [hdd, e]; exact List.mem_cons_self _ _)
      simpa using hc
  simp only [gitwildMatches]
  rw [if_neg hheadp, if_pos (List.getLast?_concat d.data), List.dropLast_concat]
  exact List.elem_iff

theorem decide_redaction_directory_rule_witness :
    (decide_redaction "x/docs/y.txt"
        (compile_gitwild_patterns ["docs" ++ "/"])).1 = true :=
  (decide_redaction_directory_rule.2.2.1 "docs" "x/docs/y.txt" (by decide)
    (by decide) (by decide)).mpr (by decide)

/-- **C5** — Root anchoring: under the single rule `"/README.md"`,
`"README.md"` is redacted with reason `glob:/README.md` while
`"docs/README.md"` is untouched; a slash-anchored wildcard-free pattern
matches only the full path from the repository root (the path itself, or
a path nested under it), never the basename alone. -/
theorem decide_redaction_root_anchored :
    decide_redaction "README.md" (compile_gitwild_patterns ["/README.md"]) =
      (true, "glob:/README.md") ∧
    decide_redaction "docs/README.md" (compile_gitwild_patterns ["/README.md"]) =
      (false, "-") ∧
    (∀ (name path : String),
      hasWildcard name.data = false → name.data.contains '/' = false →
      ((decide_redaction path (compile_gitwild_patterns ["/" ++ name])).1 = true ↔
        ((normalize_path path).data = name.data ∨
          startsWithChars (normalize_path path).data (name.data ++ ['/']) = true))) := by
  refine ⟨by decide, by decide, ?_⟩
  intro name path hwild hslash
  have hhead2 : ("/" ++ name).data.head? ≠ some '!' := by
    show ('/' :: name.data).head? ≠ some '!'
    simp
  rw [show compile_gitwild_patterns ["/" ++ name] = [⟨"/" ++ name, true⟩] from by
    simp [compile_gitwild_patterns, ofLine_of_head_ne _ hhead2]]
  rw [decide_redaction_single path ⟨"/" ++ name, true⟩ rfl]
  show gitwildMatches (dropBangs ('/' :: name.data)) (normalize_path path).data
      = true ↔ _
  rw [dropBangs_of_head_ne ('/' :: name.data) (by simp)]
  have hmem : ('/' : Char) ∉ name.data := by
    intro hm
    have hc : name.data.contains '/' = true := List.elem_iff.mpr hm
    rw [hslash] at hc
    exact Bool.false_ne_true hc
  have hlast : ¬ (('/' :: name.data).tail.getLast? = some '/') := by
    intro h
    exact hmem (List.mem_of_mem_getLast? h)
  simp only [gitwildMatches]
  rw [if_pos (show ('/' :: name.data).head? = some '/' from rfl), if_neg hlast,
    if_pos (show ¬ hasWildcard ('/' :: name.data).tail = true ∧
        ¬ ('/' :: name.data).tail.contains '/' = true from
      ⟨by simp [hwild], by simpa using hmem⟩)]
  show (decide ((normalize_path path).data = name.data) ||
      startsWithChars (normalize_path path).data (name.data ++ ['/'])) = true ↔ _
  simp

theorem decide_redaction_root_anchored_witness :
    (decide_redaction "./LICENSE"
        (compile_gitwild_patterns ["/" ++ "LICENSE"])).1 = true :=
  (decide_redaction_root_anchored.2.2 "LICENSE" "./LICENSE" (by decide)
    (by decide)).mpr (Or.inl (by decide))

theorem collectLoop_paths (T S : List String) (fs : FS)
    (pats : List GitWildMatchPattern) :
    ∀ l : List String,
      (collectLoop T S fs pats l).1.map FileRecord.path =
        l.filter fun p => S.contains p || (fs.isfile p && (fs.getsize p).isSome)
  | [] => rfl
  | rel :: rest => by
    have ih := collectLoop_paths T S fs pats rest
    simp only [collectLoop, List.filter_cons]
    by_cases hs : rel ∈ S
    · simp [hs, ih]
    · by_cases hf : fs.isfile rel
      · cases hg : fs.getsize rel with
        | none => simp [hs, hf, hg, ih]
        | some n => simp [hs, hf, hg, ih]
      · simp [hs, hf, ih]

theorem collectLoop_records (T S : List String) (fs : FS)
    (pats : List GitWildMatchPattern) :
    ∀ l : List String, ∀ e ∈ (collectLoop T S fs pats l).1,
      (e.path ∈ S ∧ e.tracked = true ∧ e.size = 0) ∨
      (e.path ∉ S ∧ (e.tracked = true ↔ e.path ∈ T))
  | [] => by intro e he; exact absurd he (List.not_mem_nil e)
  | rel :: rest => by
    intro e he
    have ih := collectLoop_records T S fs pats rest
    simp only [collectLoop] at he
    by_cases hs : rel ∈ S
    · rw [if_pos (by simpa using hs)] at he
      rcases List.mem_cons.mp he with h | h
      · subst h; exact Or.inl ⟨hs, rfl, rfl⟩
      · exact ih e h
    · rw [if_neg (by simpa using hs)] at he
      by_cases hf : fs.isfile rel
      · rw [if_pos hf] at he
        cases hg : fs.getsize rel with
        | none => rw [hg] at he; exact ih e he
        | some n =>
          rw [hg] at he
          rcases List.mem_cons.mp he with h | h
          · subst h
            refine Or.inr ⟨hs, ?_⟩
            show T.contains rel = true ↔ rel ∈ T
            exact List.elem_iff
          · exact ih e h
      · rw [if_neg hf] at he
        exact ih e he

/-- **C2** — Scope postcondition: with untracked inclusion enabled, the
collected record paths are exactly `T ∪ U ∪ S` minus the non-submodule
paths failing the regular-file check; paths are pairwise distinct, every
submodule path is recorded tracked with size 0 (exempt from the file
check), and any path the tracked oracle reports is classified tracked.
Stated for a quiescent filesystem: `getsize` succeeds on every path that
passes the `isfile` check. -/
theorem collect_entries_scope (oracle : GitOracle) (fs : FS)
    (pats : List GitWildMatchPattern)
    (hstat : ∀ p, fs.isfile p = true → (fs.getsize p).isSome = true) :
    (∀ p : String,
      p ∈ (collect_entries oracle fs true pats).1.map FileRecord.path ↔
        ((p ∈ oracle.tracked ∨ p ∈ oracle.untracked ∨ p ∈ oracle.submods) ∧
          (p ∈ oracle.submods ∨ fs.isfile p = true))) ∧
    ((collect_entries oracle fs true pats).1.map FileRecord.path).Nodup ∧
    (∀ e ∈ (collect_entries oracle fs true pats).1,
      e.path ∈ oracle.submods → e.tracked = true ∧ e.size = 0) ∧
    (∀ e ∈ (collect_entries oracle fs true pats).1,
      e.path ∈ oracle.tracked → e.tracked = true) := by
  have hpaths : (collect_entries oracle fs true pats).1.map FileRecord.path =
      (sortedSet (oracle.tracked ++ oracle.untracked ++ oracle.submods)).filter
        fun p => oracle.submods.contains p ||
          (fs.isfile p && (fs.getsize p).isSome) :=
    collectLoop_paths oracle.tracked oracle.submods fs pats _
  have hrecs : ∀ e ∈ (collect_entries oracle fs true pats).1,
      (e.path ∈ oracle.submods ∧ e.tracked = true ∧ e.size = 0) ∨
      (e.path ∉ oracle.submods ∧
        (e.tracked = true ↔ e.path ∈ oracle.tracked)) :=
    collectLoop_records oracle.tracked oracle.submods fs pats _
  refine ⟨?_, ?_, ?_, ?_⟩
  · intro p
    rw [hpaths, List.mem_filter, mem_sortedSet]
    constructor
    · rintro ⟨hin, hkeep⟩
      refine ⟨by simpa [List.mem_append, or_assoc] using hin, ?_⟩
      rcases Bool.or_eq_true_iff.mp hkeep with h | h
      · exact Or.inl (List.elem_iff.mp h)
      · exact Or.inr (Bool.and_eq_true_iff.mp h).1
    · rintro ⟨hin, hkeep⟩
      refine ⟨by simpa [List.mem_append, or_assoc] using hin, ?_⟩
      rcases hkeep with h | h
      · exact Bool.or_eq_true_iff.mpr (Or.inl (List.elem_iff.mpr h))
      · exact Bool.or_eq_true_iff.mpr
          (Or.inr (Bool.and_eq_true_iff.mpr ⟨h, hstat p h⟩))
  · rw [hpaths]
    exact (nodup_sortedSet _).filter _
  · intro e he hsub
    rcases hrecs e he with ⟨_, ht, hz⟩ | ⟨hns, _⟩
    · exact ⟨ht, hz⟩
    · exact absurd hsub hns
  · intro e he htr
    rcases hrecs e he with ⟨_, ht, _⟩ | ⟨_, ht⟩
    · exact ht
    · exact ht.mpr htr

/-- A concrete oracle answer used by witnesses. -/
def wOracle : GitOracle :=
  ⟨["a"], ["b"], ["s"]⟩

/-- A concrete filesystem used by witnesses: every path is a readable
regular file of five bytes `1, 2, 3, 4, 5`. -/
def wFS : FS :=
  ⟨fun _ => true, fun _ => some 5, fun _ => some [1, 2, 3, 4, 5]⟩

theorem collect_entries_scope_witness :
    "b" ∈ (collect_entries wOracle wFS true []).1.map FileRecord.path :=
  ((collect_entries_scope wOracle wFS [] fun _ _ => rfl).1 "b").mpr
    ⟨Or.inr (Or.inl (by simp [wOracle])), Or.inr rfl⟩

theorem dumpFileBlocks_append (c : Codec) (fs : FS) :
    ∀ (pre l : List FileRecord),
      (∀ x ∈ pre, x.redact = false → fs.content x.path ≠ none) →
      (dumpFileBlocks c fs (pre ++ l)).blocks =
          (dumpFileBlocks c fs pre).blocks ++ (dumpFileBlocks c fs l).blocks ∧
        (dumpFileBlocks c fs (pre ++ l)).warns =
          (dumpFileBlocks c fs pre).warns ++ (dumpFileBlocks c fs l).warns ∧
        (dumpFileBlocks c fs (pre ++ l)).err = (dumpFileBlocks c fs l).err ∧
        (dumpFileBlocks c fs pre).blocks.length = pre.length
  | [], l => by intro _; refine ⟨rfl, rfl, rfl, rfl⟩
  | e :: pre, l => by
    intro h
    have ih := dumpFileBlocks_append c fs pre l
      fun x hx => h x (List.mem_cons_of_mem e hx)
    obtain ⟨ihb, ihw, ihe, ihl⟩ := ih
    by_cases hr : e.redact
    · cases hc : fs.content e.path with
      | none =>
        simp only [List.cons_append, dumpFileBlocks, hc, hr, if_true]
        simp [ihb, ihw, ihe, ihl]
      | some data =>
        simp only [List.cons_append, dumpFileBlocks, hc, hr, if_true]
        simp [ihb, ihw, ihe, ihl]
    · have hc := h e (List.mem_cons_self e pre) (Bool.not_eq_true e.redact ▸ hr)
      cases hcc : fs.content e.path with
      | none => exact absurd hcc hc
      | some data =>
        simp only [List.cons_append, dumpFileBlocks, hcc, hr, if_false]
        simp [ihb, ihw, ihe, ihl]

/-- **C3** — Redacted-entry block: for every record with `redact = true`,
the emitted block has `Mode: binary` and `Encoding: base64`
unconditionally (content is never read for the mode decision), an empty
body between the content delimiter and the end delimiter, and a hash
field holding the SHA-256 of the file's on-disk bytes — computed even
though the body is withheld (degrading to `Hash: -` only if the disk
read itself fails). -/
theorem dump_repo_redacted_block (c : Codec) (fs : FS)
    (pre : List FileRecord) (e : FileRecord) (rest : List FileRecord)
    (hpre : ∀ x ∈ pre, x.redact = false → fs.content x.path ≠ none)
    (hred : e.redact = true) :
    (∀ data, fs.content e.path = some data →
      (dumpFileBlocks c fs (pre ++ e :: rest)).blocks[pre.length]? =
        some ⟨e.path, "binary", "base64", e.size, true, e.reason,
          "Hash: sha256:" ++ c.sha256hex data, ""⟩) ∧
    (fs.content e.path = none →
      (dumpFileBlocks c fs (pre ++ e :: rest)).blocks[pre.length]? =
        some ⟨e.path, "binary", "base64", e.size, true, e.reason,
          "Hash: -", ""⟩) := by
  obtain ⟨hb, _, _, hlen⟩ := dumpFileBlocks_append c fs pre (e :: rest) hpre
  constructor
  · intro data hdata
    rw [hb, ← hlen, List.getElem?_append_right (Nat.le_refl _), Nat.sub_self]
    simp only [dumpFileBlocks, hdata, hred, if_true]
    exact List.getElem?_cons_zero
  · intro hdata
    rw [hb, ← hlen, List.getElem?_append_right (Nat.le_refl _), Nat.sub_self]
    simp only [dumpFileBlocks, hdata, hred, if_true]
    exact List.getElem?_cons_zero

/-- A concrete codec used by witnesses: constant digest `"h"`, everything
reported UTF-8 and decoded to the empty string. -/
def wCodec : Codec :=
  ⟨fun _ => "h", fun _ => true, fun _ => "", fun _ => ""⟩

theorem dump_repo_redacted_block_witness :
    (dumpFileBlocks wCodec wFS [⟨"x", true, 7, true, "glob:x"⟩]).blocks[(0 : Nat)]? =
      some ⟨"x", "binary", "base64", 7, true, "glob:x",
        "Hash: sha256:" ++ wCodec.sha256hex [1, 2, 3, 4, 5], ""⟩ := by
  have h := (dump_repo_redacted_block wCodec wFS [] ⟨"x", true, 7, true, "glob:x"⟩ []
    (by intro x hx; exact absurd hx (List.not_mem_nil x)) rfl).1 [1, 2, 3, 4, 5] rfl
  simpa using h

/-- A concrete filesystem used by witnesses whose files exist but cannot
be read (every `open` raises). -/
def wFSnone : FS :=
  ⟨fun _ => true, fun _ => some 0, fun _ => none⟩

/-- **C8** — Propagating body-read failure: when the loop of `dump_repo`
reaches a non-redacted entry whose file cannot be read, the hash step has
warned and degraded, but the body read raises an uncaught error: the loop
stops, the error propagates, and no block is emitted for that entry or
any later one — the output contains exactly the blocks of the preceding
entries. -/
theorem dump_repo_unreadable_halts (c : Codec) (fs : FS)
    (pre : List FileRecord) (e : FileRecord) (rest : List FileRecord)
    (hpre : ∀ x ∈ pre, x.redact = false → fs.content x.path ≠ none)
    (hred : e.redact = false) (hnone : fs.content e.path = none) :
    (dumpFileBlocks c fs (pre ++ e :: rest)).err =
      some ("OSError reading " ++ e.path) ∧
    (dumpFileBlocks c fs (pre ++ e :: rest)).blocks =
      (dumpFileBlocks c fs pre).blocks ∧
    (dumpFileBlocks c fs (pre ++ e :: rest)).blocks.length = pre.length ∧
    ("WARN: cannot hash " ++ e.path) ∈ (dumpFileBlocks c fs (pre ++ e :: rest)).warns := by
  obtain ⟨hb, hw, he, hlen⟩ := dumpFileBlocks_append c fs pre (e :: rest) hpre
  have hstep : dumpFileBlocks c fs (e :: rest) =
      ⟨[], ["WARN: cannot hash " ++ e.path], some ("OSError reading " ++ e.path)⟩ := by
    simp only [dumpFileBlocks, hnone, hred]
    rfl
  refine ⟨?_, ?_, ?_, ?_⟩
  · rw [he, hstep]
  · rw [hb, hstep]
    simp
  · rw [hb, hstep]
    simpa using hlen
  · rw [hw, hstep]
    simp

theorem dump_repo_unreadable_halts_witness :
    (dumpFileBlocks wCodec wFSnone [⟨"x", true, 0, false, "-"⟩]).err =
      some ("OSError reading " ++ "x") := by
  have h := (dump_repo_unreadable_halts wCodec wFSnone []
    ⟨"x", true, 0, false, "-"⟩ []
    (by intro x hx; exact absurd hx (List.not_mem_nil x)) rfl rfl).1
  simpa using h

/-- **C9 (amended)** — Block order: the `BEGIN FILE` blocks written by
`dump_repo` appear exactly in the order of the collected entry list
(ascending lexicographic path order), one block per entry, whenever no
body read fails.  The rendered tree instead lists directories before
files at each level, so its file-line order does not in general coincide
with the block order. -/
theorem dump_blocks_follow_entry_order (c : Codec) (fs : FS) :
    ∀ entries : List FileRecord,
      (∀ x ∈ entries, x.redact = false → fs.content x.path ≠ none) →
      (dumpFileBlocks c fs entries).blocks.map Block.path =
        entries.map FileRecord.path
  | [] => fun _ => rfl
  | e :: rest => by
    intro h
    have ih := dump_blocks_follow_entry_order c fs rest
      fun x hx => h x (List.mem_cons_of_mem e hx)
    by_cases hr : e.redact
    · cases hc : fs.content e.path with
      | none =>
        simp only [dumpFileBlocks, hc, hr, if_true]
        simp [ih]
      | some data =>
        simp only [dumpFileBlocks, hc, hr, if_true]
        simp [ih]
    · have hc := h e (List.mem_cons_self e rest) (Bool.not_eq_true e.redact ▸ hr)
      cases hcc : fs.content e.path with
      | none => exact absurd hcc hc
      | some data =>
        simp only [dumpFileBlocks, hcc, hr, if_false]
        simp [ih]

theorem dump_blocks_follow_entry_order_witness :
    (dumpFileBlocks wCodec wFS
        [⟨"a", true, 5, false, "-"⟩, ⟨"b", false, 5, false, "-"⟩]).blocks.map
      Block.path = ["a", "b"] := by
  have h := dump_blocks_follow_entry_order wCodec wFS
    [⟨"a", true, 5, false, "-"⟩, ⟨"b", false, 5, false, "-"⟩]
    (by intro x hx hx2 hh; simp [wFS] at hh)
  simpa using h

/-- A two-file repository refuting block/tree order agreement: one root
file `a` and one file `b/c` inside a directory. -/
def cexOracle : GitOracle :=
  ⟨["a", "b/c"], [], []⟩

/-- **C9 (counterexample)** — for the collected entries of `cexOracle`
(paths `a` and `b/c` in sorted order), the blocks are written `a` first,
but the rendered tree lists the directory `b/` — hence the file line for
`b/c` — before the root file `a`: the two orders differ. -/
theorem dump_blocks_tree_order_counterexample :
    ¬ ((dumpFileBlocks wCodec wFS
          (collect_entries cexOracle wFS true []).1).blocks.map Block.path =
        (build_tree_index
          (collect_entries cexOracle wFS true []).1).fileOrder.map
          FileRecord.path) := by
  decide

end Flatpack
